import Mathlib

/-!
Verification of the address-range allocator and test-tool helpers of this
repository.

The allocator (package iprange) is specified as a state machine over a
bounded, ordered range of addresses; each address is Free, Allocated or
Reserved.  Its source file is not present in the repository snapshot (only
its test file is), so the allocator operations below are modelled from the
specification.  The test-tool helpers (package testtool) are embedded
directly from their source files equal.go and childcleaner.go.

Addresses are modelled as natural numbers; the range is the ordered list of
its addresses in the range's natural ascending order.
-/

/-- Modelled from the spec: the Allocator state (source file allocator.go is
missing from the snapshot; only allocator_test.go is present).  Per-address
state is represented by the three component lists: an address of the range
is Reserved when it is in reserved, Allocated when it is in allocated, and
Free otherwise.  remaining and size are int64 counters in the source, held
here as integers. -/
structure Allocator where
  range : List Nat
  allocated : List Nat
  reserved : List Nat
  remaining : Int
  size : Int
deriving DecidableEq, Repr

/-- Modelled from the spec: NewAllocator initialises size and remaining to
the range's count, with all addresses Free and reserved empty. -/
def NewAllocator (r : List Nat) : Allocator :=
  Allocator.mk r [] [] (r.length : Int) (r.length : Int)

/-- An address is Free when it belongs to the range and is neither
Allocated nor Reserved. -/
def isFree (al : Allocator) (a : Nat) : Bool :=
  decide (a ∈ al.range) && !decide (a ∈ al.allocated) && !decide (a ∈ al.reserved)

/-- Modelled from the spec: Allocate selects the lowest-ordered Free
address in the range's ascending order, marks it Allocated and decrements
remaining; when no Free address exists it returns none and changes
nothing. -/
def Allocate (al : Allocator) : Option Nat × Allocator :=
  match al.range.find? (fun a => isFree al a) with
  | some a =>
    (some a, Allocator.mk al.range (a :: al.allocated) al.reserved (al.remaining - 1) al.size)
  | none => (none, al)

/-- Modelled from the spec: Reserve moves a Free address to Reserved,
recording it and decrementing remaining; on a non-Free address it is a
silent no-op. -/
def Reserve (al : Allocator) (a : Nat) : Allocator :=
  if isFree al a then
    Allocator.mk al.range al.allocated (a :: al.reserved) (al.remaining - 1) al.size
  else al

/-- Modelled from the spec: Release moves an Allocated address back to
Free and increments remaining; on a non-Allocated address it is a silent
no-op. -/
def Release (al : Allocator) (a : Nat) : Allocator :=
  if a ∈ al.allocated then
    Allocator.mk al.range (al.allocated.erase a) al.reserved (al.remaining + 1) al.size
  else al

/-- Modelled from the spec: Remaining returns the remaining counter, a pure
read. -/
def Remaining (al : Allocator) : Int := al.remaining

/-- Well-formed allocator states: the states reachable from NewAllocator
over a duplicate-free range.  The component lists are duplicate-free
subsets of the range, Allocated and Reserved are disjoint, and the
counters agree with the per-address states. -/
def WF (al : Allocator) : Prop :=
  al.range.Nodup ∧ al.allocated.Nodup ∧ al.reserved.Nodup ∧
  (∀ a ∈ al.allocated, a ∈ al.range) ∧ (∀ a ∈ al.reserved, a ∈ al.range) ∧
  (∀ a ∈ al.allocated, a ∉ al.reserved) ∧
  al.remaining = ((al.range.filter (fun a => isFree al a)).length : Int) ∧
  al.size = (al.range.length : Int)

instance (al : Allocator) : Decidable (WF al) := by
  unfold WF
  infer_instance

/-- One request to the allocator: an Allocate call, or a Reserve or
Release call with its address argument. -/
inductive Op where
  | alloc
  | reserve (a : Nat)
  | release (a : Nat)
deriving DecidableEq, Repr

/-- The allocator state after serving one request. -/
def step (al : Allocator) : Op → Allocator
  | Op.alloc => (Allocate al).2
  | Op.reserve a => Reserve al a
  | Op.release a => Release al a

/-- The address returned by one request: some address for a successful
Allocate, none otherwise. -/
def stepResult (al : Allocator) : Op → Option Nat
  | Op.alloc => (Allocate al).1
  | Op.reserve _ => none
  | Op.release _ => none

/-- The allocator state after serving a sequence of requests. -/
def runOps (al : Allocator) (ops : List Op) : Allocator := ops.foldl step al

/-- The address returned by the request at position i of a sequence of
requests served from state al. -/
def resultAt (al : Allocator) (ops : List Op) (i : Nat) : Option Nat :=
  match ops.get? i with
  | some op => stepResult (runOps al (ops.take i)) op
  | none => none

/-- K successive Allocate calls, returning the final state and the list of
returned addresses in call order. -/
def allocateN (al : Allocator) : Nat → Allocator × List Nat
  | 0 => (al, [])
  | k+1 =>
    match Allocate al with
    | (some a, al2) =>
      let p := allocateN al2 k
      (p.1, a :: p.2)
    | (none, al2) => (al2, [])

/-! Embedding of src/testtool/equal.go: the reflect kinds, the isNil kind
check, and the nil-handling prefix of TestEqual. -/

/-- The reflect value kinds distinguished by the isNil switch in
src/testtool/equal.go, plus representatives of the remaining kinds. -/
inductive GoKind where
  | Func
  | Interface
  | Map
  | Ptr
  | Slice
  | Chan
  | Struct
  | Other
deriving DecidableEq, Repr

/-- A Go interface value as seen by isNil: whether the interface itself is
nil (untyped nil), the reflect kind of the stored value, and whether
reflect's IsNil holds of the stored value. -/
structure GoValue where
  isUntypedNil : Bool
  kind : GoKind
  valueIsNil : Bool
deriving DecidableEq, Repr

/-- The untyped nil interface value. -/
def untypedNil : GoValue := GoValue.mk true GoKind.Other false

/-- isNil from src/testtool/equal.go: true for the untyped nil; for the
Func, Interface, Map, Ptr and Slice kinds it defers to reflect's IsNil;
every other kind returns false. -/
def isNil (i : GoValue) : Bool :=
  if i.isUntypedNil then true
  else
    match i.kind with
    | GoKind.Func => i.valueIsNil
    | GoKind.Interface => i.valueIsNil
    | GoKind.Map => i.valueIsNil
    | GoKind.Ptr => i.valueIsNil
    | GoKind.Slice => i.valueIsNil
    | _ => false

/-- The kinds for which the isNil switch consults reflect's IsNil. -/
def isNilableKind : GoKind → Bool
  | GoKind.Func => true
  | GoKind.Interface => true
  | GoKind.Map => true
  | GoKind.Ptr => true
  | GoKind.Slice => true
  | _ => false

/-- Outcome of a TestEqual call: pass (returns without failing), one of the
two Fatalf calls of the nil-check prefix, or entry into the deep structural
comparison (deepValueEqual), which lies beyond the nil-handling modelled
here. -/
inductive EqOutcome where
  | pass
  | fatalExpectedNonNil
  | fatalExpectedNil
  | deepCompare
deriving DecidableEq, Repr

/-- TestEqual from src/testtool/equal.go, up to its dispatch into
deepValueEqual: both arguments nil passes immediately; exactly one nil is
a test failure; otherwise the deep comparison runs. -/
def TestEqual (hv wv : GoValue) : EqOutcome :=
  let haveNil := isNil hv
  let wantNil := isNil wv
  if haveNil && wantNil then EqOutcome.pass
  else if haveNil && !wantNil then EqOutcome.fatalExpectedNonNil
  else if !haveNil && wantNil then EqOutcome.fatalExpectedNil
  else EqOutcome.deepCompare

/-! Embedding of src/testtool/childcleaner.go: the init interceptor that
turns the test binary into a cleanup child process. -/

/-- The startup token from src/testtool/childcleaner.go. -/
def startupInterceptorToken : String := "sdf908s0dijflk23423"

/-- What the init interceptor does with the process: fall through to a
normal test run, print and exit with status 1 removing nothing, exit with
status 0 after a stdin read error removing nothing, or call RemoveAll on
the directory and exit with status 0. -/
inductive CleanerAction where
  | passThrough
  | refuseExit1
  | stdinErrorExit0
  | removeAllExit0 (dir : String)
deriving DecidableEq, Repr

/-- strings.HasPrefix from the Go standard library, character-wise. -/
def goHasPrefix (s pre : String) : Bool := List.isPrefixOf pre.toList s.toList

/-- The init interceptor of src/testtool/childcleaner.go as a function of
the process arguments, the system temporary directory, and whether reading
stdin to EOF succeeds.  With other than three arguments or a wrong token it
falls through; with a directory argument not under the temporary directory
it refuses and exits 1; otherwise it waits for stdin and removes the
directory. -/
def childCleanerInit (args : List String) (tmpDir : String) (stdinOk : Bool) : CleanerAction :=
  match args with
  | [_, tok, dir] =>
    if tok = startupInterceptorToken then
      if goHasPrefix dir tmpDir then
        if stdinOk then CleanerAction.removeAllExit0 dir else CleanerAction.stdinErrorExit0
      else CleanerAction.refuseExit1
    else CleanerAction.passThrough
  | _ => CleanerAction.passThrough

/-! Helper lemmas about the allocator operations. -/

theorem isFree_eq_true_iff (al : Allocator) (a : Nat) :
    isFree al a = true ↔ a ∈ al.range ∧ a ∉ al.allocated ∧ a ∉ al.reserved := by
  simp [isFree, and_assoc]

theorem free_not_allocated (al : Allocator) (a : Nat) (h : isFree al a = true) :
    a ∉ al.allocated := ((isFree_eq_true_iff al a).1 h).2.1

theorem free_not_reserved (al : Allocator) (a : Nat) (h : isFree al a = true) :
    a ∉ al.reserved := ((isFree_eq_true_iff al a).1 h).2.2

theorem free_mem_range (al : Allocator) (a : Nat) (h : isFree al a = true) :
    a ∈ al.range := ((isFree_eq_true_iff al a).1 h).1

theorem reserve_of_not_free (al : Allocator) (a : Nat) (h : isFree al a = false) :
    Reserve al a = al := by
  simp [Reserve, h]

theorem isFree_reserve_self (al : Allocator) (b : Nat) : isFree (Reserve al b) b = false := by
  by_cases hb : isFree al b = true
  · have hres : Reserve al b =
        Allocator.mk al.range al.allocated (b :: al.reserved) (al.remaining - 1) al.size := by
      simp [Reserve, hb]
    rw [hres]
    simp [isFree]
  · rw [reserve_of_not_free al b (by simpa using hb)]
    simpa using hb

/-- C7: reserving a non-Free address (already Allocated, already Reserved, or
outside the range) leaves Remaining unchanged, and Reserve is idempotent in
its effect on Remaining: reserving the same address twice yields the same
Remaining value as reserving it once. -/
theorem c7_reserve_non_free_noop (al : Allocator) (a : Nat) (h : isFree al a = false) :
    Remaining (Reserve al a) = Remaining al ∧
    ∀ b : Nat, Remaining (Reserve (Reserve al b) b) = Remaining (Reserve al b) := by
  refine ⟨by rw [reserve_of_not_free al a h], ?_⟩
  intro b
  rw [reserve_of_not_free (Reserve al b) b (isFree_reserve_self al b)]

theorem c7_witness :
    Remaining (Reserve (NewAllocator [5, 6]) 7) = Remaining (NewAllocator [5, 6]) ∧
    ∀ b : Nat, Remaining (Reserve (Reserve (NewAllocator [5, 6]) b) b) =
      Remaining (Reserve (NewAllocator [5, 6]) b) :=
  c7_reserve_non_free_noop (NewAllocator [5, 6]) 7 (by decide)

/-- C6: releasing an address that is Free or Reserved (in particular, one
that is not Allocated) is a no-op on a well-formed state: no error, the
whole allocator state, hence Remaining and every address state, is
unchanged. -/
theorem c6_release_non_allocated_noop (al : Allocator) (a : Nat) (hwf : WF al)
    (h : isFree al a = true ∨ a ∈ al.reserved) : Release al a = al := by
  have hna : a ∉ al.allocated := by
    rcases h with h | h
    · exact free_not_allocated al a h
    · intro hmem
      exact hwf.2.2.2.2.2.1 a hmem h
  simp [Release, hna]

theorem c6_witness : Release (NewAllocator [5, 6]) 5 = NewAllocator [5, 6] :=
  c6_release_non_allocated_noop (NewAllocator [5, 6]) 5 (by decide) (Or.inl (by decide))

/-- C5: on a well-formed state with Remaining zero, Allocate returns the
explicit none result and leaves the whole allocator state unchanged. -/
theorem c5_allocate_exhausted (al : Allocator) (hwf : WF al) (h : Remaining al = 0) :
    (Allocate al).1 = none ∧ (Allocate al).2 = al := by
  obtain ⟨-, -, -, -, -, -, h7, -⟩ := hwf
  have hz : ((al.range.filter (fun a => isFree al a)).length : Int) = 0 := by
    rw [← h7]; exact h
  have hlen : (al.range.filter (fun a => isFree al a)).length = 0 := by exact_mod_cast hz
  have hnil : al.range.filter (fun a => isFree al a) = [] := List.length_eq_zero.1 hlen
  have hfind : al.range.find? (fun a => isFree al a) = none := by
    rw [List.find?_eq_none]
    intro x hx
    have := (List.filter_eq_nil_iff.1 hnil) x hx
    simpa using this
  simp [Allocate, hfind]

theorem c5_witness :
    (Allocate (NewAllocator [])).1 = none ∧ (Allocate (NewAllocator [])).2 = NewAllocator [] :=
  c5_allocate_exhausted (NewAllocator []) (by decide) (by decide)

/-- C9: TestEqual with want the untyped nil and have a typed nil value of
Func, Interface, Map, Ptr or Slice kind passes (no test failure): the
typed nil is judged nil by the isNil kind check even though it is not the
untyped nil interface value, so interface comparison plays no part. -/
theorem c9_typed_nil_equals_nil (k : GoKind) (hk : isNilableKind k = true) :
    TestEqual (GoValue.mk false k true) untypedNil = EqOutcome.pass ∧
    isNil (GoValue.mk false k true) = true ∧
    (GoValue.mk false k true).isUntypedNil = false := by
  cases k <;> simp_all [TestEqual, isNil, untypedNil, isNilableKind]

theorem c9_witness :
    TestEqual (GoValue.mk false GoKind.Ptr true) untypedNil = EqOutcome.pass ∧
    isNil (GoValue.mk false GoKind.Ptr true) = true ∧
    (GoValue.mk false GoKind.Ptr true).isUntypedNil = false :=
  c9_typed_nil_equals_nil GoKind.Ptr (by decide)

/-- C10: the cleanup child process removes a directory only when the
directory argument has the system temporary directory as a prefix, and on a
token-bearing invocation whose directory argument lacks that prefix it
exits with status 1 without removing anything. -/
theorem c10_cleanup_confined (args : List String) (tmpDir : String) (stdinOk : Bool) :
    (∀ dir, childCleanerInit args tmpDir stdinOk = CleanerAction.removeAllExit0 dir →
      goHasPrefix dir tmpDir = true) ∧
    (∀ a0 dir, goHasPrefix dir tmpDir = false →
      childCleanerInit [a0, startupInterceptorToken, dir] tmpDir stdinOk =
        CleanerAction.refuseExit1) := by
  constructor
  · intro dir h
    match args with
    | [] => simp [childCleanerInit] at h
    | [_] => simp [childCleanerInit] at h
    | [_, _] => simp [childCleanerInit] at h
    | _ :: _ :: _ :: _ :: _ => simp [childCleanerInit] at h
    | [a, b, c] =>
      simp only [childCleanerInit] at h
      split_ifs at h with h1 h2 h3 <;>
        first
          | (cases h; exact h2)
          | cases h
  · intro a0 dir hpre
    simp [childCleanerInit, hpre]

theorem c10_witness :
    childCleanerInit ["prog", startupInterceptorToken, "/etc/passwd"] "/tmp" true =
      CleanerAction.refuseExit1 :=
  (c10_cleanup_confined ["prog", startupInterceptorToken, "/etc/passwd"] "/tmp" true).2
    "prog" "/etc/passwd" (by decide)

/-! Trace lemmas: how the component lists evolve over request sequences. -/

theorem allocate_find (al : Allocator) :
    (Allocate al).1 = al.range.find? (fun x => isFree al x) := by
  rcases hf : al.range.find? (fun x => isFree al x) with _ | b <;> simp [Allocate, hf]

theorem allocate_some_isFree (al : Allocator) (a : Nat) (h : (Allocate al).1 = some a) :
    isFree al a = true := by
  rw [allocate_find] at h
  exact List.find?_some h

theorem allocate_snd_allocated (al : Allocator) (a : Nat) (h : (Allocate al).1 = some a) :
    (Allocate al).2.allocated = a :: al.allocated := by
  have hf : al.range.find? (fun x => isFree al x) = some a := by
    rw [← allocate_find]
    exact h
  simp [Allocate, hf]

theorem allocated_sub_step (al : Allocator) (op : Op) (a : Nat) (ha : a ∈ al.allocated)
    (hop : op ≠ Op.release a) : a ∈ (step al op).allocated := by
  cases op with
  | alloc =>
    rcases hf : al.range.find? (fun x => isFree al x) with _ | b
    · simp only [step, Allocate, hf]
      exact ha
    · simp only [step, Allocate, hf]
      exact List.mem_cons_of_mem b ha
  | reserve b =>
    by_cases hb : isFree al b = true
    · simp only [step, Reserve, hb, if_true]
      exact ha
    · rw [step, reserve_of_not_free al b (by simpa using hb)]
      exact ha
  | release b =>
    have hab : a ≠ b := fun hx => hop (by rw [hx])
    by_cases hbmem : b ∈ al.allocated
    · simp only [step, Release, hbmem, if_true]
      exact (List.mem_erase_of_ne hab).2 ha
    · simp only [step, Release, hbmem, if_false]
      exact ha

theorem allocated_sub_run (al : Allocator) (ops : List Op) (a : Nat) (ha : a ∈ al.allocated)
    (h : ∀ op ∈ ops, op ≠ Op.release a) : a ∈ (runOps al ops).allocated := by
  induction ops generalizing al with
  | nil => exact ha
  | cons op rest ih =>
    exact ih (step al op)
      (allocated_sub_step al op a ha (h op (List.mem_cons_self op rest)))
      (fun o ho => h o (List.mem_cons_of_mem op ho))

theorem reserved_sub_step (al : Allocator) (op : Op) (a : Nat) (ha : a ∈ al.reserved) :
    a ∈ (step al op).reserved := by
  cases op with
  | alloc =>
    rcases hf : al.range.find? (fun x => isFree al x) with _ | b <;>
      simp only [step, Allocate, hf] <;> exact ha
  | reserve b =>
    by_cases hb : isFree al b = true
    · simp only [step, Reserve, hb, if_true]
      exact List.mem_cons_of_mem b ha
    · rw [step, reserve_of_not_free al b (by simpa using hb)]
      exact ha
  | release b =>
    by_cases hbmem : b ∈ al.allocated
    · simp only [step, Release, hbmem, if_true]
      exact ha
    · simp only [step, Release, hbmem, if_false]
      exact ha

theorem reserved_sub_run (al : Allocator) (ops : List Op) (a : Nat) (ha : a ∈ al.reserved) :
    a ∈ (runOps al ops).reserved := by
  induction ops generalizing al with
  | nil => exact ha
  | cons op rest ih => exact ih (step al op) (reserved_sub_step al op a ha)

theorem stepResult_some_alloc (al : Allocator) (op : Op) (a : Nat)
    (h : stepResult al op = some a) : op = Op.alloc ∧ (Allocate al).1 = some a := by
  cases op with
  | alloc => exact ⟨rfl, h⟩
  | reserve b => cases h
  | release b => cases h

theorem resultAt_unpack (al : Allocator) (ops : List Op) (i : Nat) (a : Nat)
    (h : resultAt al ops i = some a) :
    ops.get? i = some Op.alloc ∧ (Allocate (runOps al (ops.take i))).1 = some a := by
  unfold resultAt at h
  rcases hgi : ops.get? i with _ | op
  · rw [hgi] at h
    cases h
  · rw [hgi] at h
    obtain ⟨hopi, halloc⟩ := stepResult_some_alloc _ op a h
    subst hopi
    exact ⟨rfl, halloc⟩

theorem mem_middle_index (ops : List Op) (j i : Nat) (op : Op)
    (h : op ∈ (ops.drop (j+1)).take (i - (j+1))) :
    ∃ k, j < k ∧ k < i ∧ ops.get? k = some op := by
  obtain ⟨n, hn⟩ := List.mem_iff_get?.1 h
  have hlen : n < ((ops.drop (j+1)).take (i - (j+1))).length := by
    by_contra hge
    push_neg at hge
    rw [List.get?_eq_none.2 hge] at hn
    cases hn
  have hni : n < i - (j+1) := lt_of_lt_of_le hlen (List.length_take_le _ _)
  have hget : (ops.drop (j+1)).get? n = some op := by
    rw [← List.get?_take hni]
    exact hn
  refine ⟨j+1+n, by omega, by omega, ?_⟩
  rw [← List.get?_drop]
  exact hget

/-- C1: along any request sequence served from a fresh allocator, a
successful Allocate at position i never returns an address in the Reserved
state there, and if an earlier Allocate at position j returned the same
address then some Release of that address lies strictly between j and i:
no address is handed out twice while it stays Allocated or Reserved. -/
theorem c1_allocate_never_repeats (r : List Nat) (ops : List Op) (i j a : Nat)
    (hi : resultAt (NewAllocator r) ops i = some a) :
    a ∉ (runOps (NewAllocator r) (ops.take i)).reserved ∧
    (j < i → resultAt (NewAllocator r) ops j = some a →
      ∃ k, j < k ∧ k < i ∧ ops.get? k = some (Op.release a)) := by
  obtain ⟨hgi, halloci⟩ := resultAt_unpack _ ops i a hi
  have hfreei : isFree (runOps (NewAllocator r) (ops.take i)) a = true :=
    allocate_some_isFree _ a halloci
  refine ⟨free_not_reserved _ a hfreei, ?_⟩
  intro hj hresj
  obtain ⟨hgj, hallocj⟩ := resultAt_unpack _ ops j a hresj
  by_contra hnone
  push_neg at hnone
  have hj1 : a ∈ (runOps (NewAllocator r) (ops.take (j+1))).allocated := by
    have htake : ops.take (j+1) = ops.take j ++ [Op.alloc] := by
      rw [List.take_succ]
      rw [← List.get?_eq_getElem?, hgj]
      rfl
    rw [htake]
    show a ∈ (List.foldl step (NewAllocator r) (ops.take j ++ [Op.alloc])).allocated
    rw [List.foldl_append]
    show a ∈ (step (runOps (NewAllocator r) (ops.take j)) Op.alloc).allocated
    rw [step, allocate_snd_allocated _ a hallocj]
    exact List.mem_cons_self a _
  have hsplit : ops.take i = ops.take (j+1) ++ (ops.drop (j+1)).take (i - (j+1)) := by
    have he : (j+1) + (i - (j+1)) = i := by omega
    conv_lhs => rw [← he]
    exact List.take_add ops (j+1) (i - (j+1))
  have hmono : a ∈ (runOps (NewAllocator r) (ops.take i)).allocated := by
    rw [hsplit]
    show a ∈ (List.foldl step (NewAllocator r) _).allocated
    rw [List.foldl_append]
    exact allocated_sub_run _ _ a hj1 (fun op hop heq => by
      obtain ⟨k, hk1, hk2, hk3⟩ := mem_middle_index ops j i op hop
      exact hnone k hk1 hk2 (heq ▸ hk3))
  exact absurd hmono (free_not_allocated _ a hfreei)

theorem c1_witness :
    10 ∉ (runOps (NewAllocator [10, 11]) ([Op.alloc, Op.release 10, Op.alloc].take 2)).reserved ∧
    (0 < 2 → resultAt (NewAllocator [10, 11]) [Op.alloc, Op.release 10, Op.alloc] 0 = some 10 →
      ∃ k, 0 < k ∧ k < 2 ∧ [Op.alloc, Op.release 10, Op.alloc].get? k = some (Op.release 10)) :=
  c1_allocate_never_repeats [10, 11] [Op.alloc, Op.release 10, Op.alloc] 2 0 10 (by decide)

/-- C3: on a state where the address is Free, Reserve decrements Remaining
by exactly one and records the address in the reserved set, and no Allocate
at any position of any subsequent request sequence ever returns that
address, even after all other addresses are exhausted. -/
theorem c3_reserve_excludes_forever (al : Allocator) (a : Nat) (h : isFree al a = true)
    (ops : List Op) (i : Nat) :
    Remaining (Reserve al a) = Remaining al - 1 ∧
    a ∈ (Reserve al a).reserved ∧
    resultAt (Reserve al a) ops i ≠ some a := by
  have hres : Reserve al a =
      Allocator.mk al.range al.allocated (a :: al.reserved) (al.remaining - 1) al.size := by
    simp [Reserve, h]
  refine ⟨by rw [hres]; simp [Remaining], by rw [hres]; exact List.mem_cons_self a _, ?_⟩
  intro hcontra
  obtain ⟨-, halloc⟩ := resultAt_unpack _ ops i a hcontra
  have hfree := allocate_some_isFree _ a halloc
  have hares : a ∈ (runOps (Reserve al a) (ops.take i)).reserved :=
    reserved_sub_run _ _ a (by rw [hres]; exact List.mem_cons_self a _)
  exact absurd hares (free_not_reserved _ a hfree)

theorem c3_witness :
    Remaining (Reserve (NewAllocator [1, 2]) 1) = Remaining (NewAllocator [1, 2]) - 1 ∧
    1 ∈ (Reserve (NewAllocator [1, 2]) 1).reserved ∧
    resultAt (Reserve (NewAllocator [1, 2]) 1) [Op.alloc, Op.alloc] 1 ≠ some 1 :=
  c3_reserve_excludes_forever (NewAllocator [1, 2]) 1 (by decide) [Op.alloc, Op.alloc] 1

/-! Positional characterisation of find?: the element it returns is the
first of the list satisfying the predicate. -/

theorem find?_before_indexOf {p : Nat → Bool} {l : List Nat} {a : Nat}
    (h : l.find? p = some a) : ∀ b ∈ l.take (l.indexOf a), p b = false := by
  induction l with
  | nil => cases h
  | cons x t ih =>
    intro b hb
    by_cases hpx : p x = true
    · rw [List.find?_cons_of_pos t hpx] at h
      cases h
      rw [List.indexOf_cons] at hb
      simp at hb
    · rw [List.find?_cons_of_neg t hpx] at h
      have hax : a ≠ x := by
        intro he
        subst he
        exact hpx (List.find?_some h)
      rw [List.indexOf_cons] at hb
      have hxa : (x == a) = false := beq_eq_false_iff_ne.2 (Ne.symm hax)
      rw [hxa] at hb
      simp only [cond_false, List.take_succ_cons, List.mem_cons] at hb
      rcases hb with hb | hb
      · subst hb
        simpa using hpx
      · exact ih h b hb

theorem find?_at_indexOf {p : Nat → Bool} {l : List Nat} {a : Nat}
    (ha : a ∈ l) (hpa : p a = true) (hbef : ∀ b ∈ l.take (l.indexOf a), p b = false) :
    l.find? p = some a := by
  induction l with
  | nil => cases ha
  | cons x t ih =>
    by_cases hx : x = a
    · subst hx
      exact List.find?_cons_of_pos t hpa
    · have hxa : (x == a) = false := by simp [hx]
      have hpx : p x = false := by
        apply hbef
        rw [List.indexOf_cons, hxa]
        simp only [cond_false, List.take_succ_cons]
        exact List.mem_cons_self x _
      rw [List.find?_cons_of_neg t (by simp [hpx])]
      have hat : a ∈ t := by
        rcases List.mem_cons.1 ha with he | hm
        · exact absurd he.symm hx
        · exact hm
      apply ih hat
      intro b hb
      apply hbef
      rw [List.indexOf_cons, hxa]
      simp only [cond_false, List.take_succ_cons]
      exact List.mem_cons_of_mem x hb

/-- C4: on a well-formed state where the address is Allocated, Release
increments Remaining by one and makes the address Free again, and when no
lower-ordered Free address exists in the range's order the next Allocate
returns exactly that address. -/
theorem c4_release_reallocatable (al : Allocator) (a : Nat) (hwf : WF al)
    (ha : a ∈ al.allocated) :
    Remaining (Release al a) = Remaining al + 1 ∧
    isFree (Release al a) a = true ∧
    ((∀ b ∈ al.range.take (al.range.indexOf a), isFree (Release al a) b = false) →
      (Allocate (Release al a)).1 = some a) := by
  obtain ⟨hnd, hallnd, hresnd, hallsub, hressub, hdisj, hrem, hsize⟩ := hwf
  have hrel : Release al a =
      Allocator.mk al.range (al.allocated.erase a) al.reserved (al.remaining + 1) al.size := by
    simp [Release, ha]
  have hfree : isFree (Release al a) a = true := by
    rw [hrel, isFree_eq_true_iff]
    refine ⟨hallsub a ha, ?_, hdisj a ha⟩
    intro hmem
    exact absurd ((List.Nodup.mem_erase_iff hallnd).1 hmem).1 (by simp)
  refine ⟨by rw [hrel]; simp [Remaining], hfree, ?_⟩
  intro hlow
  rw [allocate_find]
  have hrange : (Release al a).range = al.range := by rw [hrel]
  rw [hrange]
  exact find?_at_indexOf (hallsub a ha) hfree hlow

theorem c4_witness :
    Remaining (Release (Allocator.mk [5, 6] [5] [] 1 2) 5) =
      Remaining (Allocator.mk [5, 6] [5] [] 1 2) + 1 ∧
    isFree (Release (Allocator.mk [5, 6] [5] [] 1 2) 5) 5 = true ∧
    ((∀ b ∈ [5, 6].take ([5, 6].indexOf 5),
        isFree (Release (Allocator.mk [5, 6] [5] [] 1 2) 5) b = false) →
      (Allocate (Release (Allocator.mk [5, 6] [5] [] 1 2) 5)).1 = some 5) :=
  c4_release_reallocatable (Allocator.mk [5, 6] [5] [] 1 2) 5 (by decide) (by decide)

/-- C8: Allocate is deterministic: two allocators in identical states
return the same address, and a returned address is Free and is the
lowest-ordered Free address of the range: every range element strictly
before it in the range's ascending order is not Free. -/
theorem c8_allocate_deterministic_lowest (al al2 : Allocator) (heq : al = al2) (a : Nat)
    (ha : (Allocate al).1 = some a) :
    (Allocate al2).1 = some a ∧ isFree al a = true ∧
    ∀ b ∈ al.range.take (al.range.indexOf a), isFree al b = false := by
  subst heq
  refine ⟨ha, allocate_some_isFree al a ha, ?_⟩
  have hfind : al.range.find? (fun x => isFree al x) = some a := by
    rw [← allocate_find]
    exact ha
  exact find?_before_indexOf hfind

theorem c8_witness :
    (Allocate (NewAllocator [4, 7])).1 = some 4 ∧
    isFree (NewAllocator [4, 7]) 4 = true ∧
    ∀ b ∈ [4, 7].take ([4, 7].indexOf 4), isFree (NewAllocator [4, 7]) b = false :=
  c8_allocate_deterministic_lowest (NewAllocator [4, 7]) (NewAllocator [4, 7]) rfl 4 (by decide)

/-! Closed form of repeated allocation from a fresh allocator: after m
successful Allocate calls the Allocated list holds exactly the first m
range elements, and the next call returns element m. -/

/-- The allocator state reached from NewAllocator after m successful
Allocate calls and nothing else. -/
def midState (r : List Nat) (m : Nat) : Allocator :=
  Allocator.mk r (r.take m).reverse [] ((r.length : Int) - m) (r.length : Int)

theorem find?_congr_mem (p q : Nat → Bool) (l : List Nat)
    (h : ∀ a ∈ l, p a = q a) : l.find? p = l.find? q := by
  induction l with
  | nil => rfl
  | cons x t ih =>
    have hx := h x (List.mem_cons_self x t)
    by_cases hpx : p x = true
    · rw [List.find?_cons_of_pos t hpx, List.find?_cons_of_pos t (hx ▸ hpx)]
    · rw [List.find?_cons_of_neg t hpx, List.find?_cons_of_neg t (hx ▸ hpx)]
      exact ih (fun a hat => h a (List.mem_cons_of_mem x hat))

theorem find?_fresh_suffix (r : List Nat) :
    ∀ (m : Nat) (hm : m < r.length), r.Nodup →
      r.find? (fun a => decide (a ∈ r) && !decide (a ∈ r.take m)) = some (r.get ⟨m, hm⟩) := by
  induction r with
  | nil =>
    intro m hm
    exact absurd hm (Nat.not_lt_zero m)
  | cons x t ih =>
    intro m hm hnd
    obtain ⟨hxt, hndt⟩ := List.nodup_cons.1 hnd
    cases m with
    | zero =>
      apply List.find?_cons_of_pos
      simp
    | succ n =>
      have hneg : ¬ ((fun a => decide (a ∈ x :: t) && !decide (a ∈ (x :: t).take (n+1))) x
          = true) := by
        simp [List.take_succ_cons]
      rw [List.find?_cons_of_neg t hneg]
      have hcong : ∀ a ∈ t,
          (fun a => decide (a ∈ x :: t) && !decide (a ∈ (x :: t).take (n+1))) a =
          (fun a => decide (a ∈ t) && !decide (a ∈ t.take n)) a := by
        intro a hat
        have hax : a ≠ x := fun he => hxt (he ▸ hat)
        simp [List.take_succ_cons, List.mem_cons, hat, hax]
      rw [find?_congr_mem _ _ t hcong]
      have hn : n < t.length := by simpa using hm
      rw [ih n hn hndt]
      rfl

theorem allocate_midState (r : List Nat) (hnd : r.Nodup) (m : Nat) (hm : m < r.length) :
    Allocate (midState r m) = (some (r.get ⟨m, hm⟩), midState r (m+1)) := by
  have hcong : ∀ a ∈ r, isFree (midState r m) a =
      (fun a => decide (a ∈ r) && !decide (a ∈ r.take m)) a := by
    intro a ha
    simp [isFree, midState, List.mem_reverse]
  have hfind : r.find? (fun a => isFree (midState r m) a) = some (r.get ⟨m, hm⟩) := by
    rw [find?_congr_mem _ _ r hcong]
    exact find?_fresh_suffix r m hm hnd
  have hget : r[m]? = some (r.get ⟨m, hm⟩) := by
    rw [List.getElem?_eq_getElem hm]
    rfl
  have htake : r.take (m+1) = r.take m ++ [r.get ⟨m, hm⟩] := by
    rw [List.take_succ, hget]
    rfl
  show Allocate (midState r m) = _
  rw [show Allocate (midState r m) =
      match (midState r m).range.find? (fun a => isFree (midState r m) a) with
      | some a => (some a, Allocator.mk (midState r m).range (a :: (midState r m).allocated)
          (midState r m).reserved ((midState r m).remaining - 1) (midState r m).size)
      | none => (none, midState r m) from rfl]
  show (match r.find? (fun a => isFree (midState r m) a) with
      | some a => (some a, Allocator.mk r (a :: (r.take m).reverse) []
          (((r.length : Int) - m) - 1) (r.length : Int))
      | none => (none, midState r m)) = _
  rw [hfind]
  show (some (r.get ⟨m, hm⟩), Allocator.mk r (r.get ⟨m, hm⟩ :: (r.take m).reverse) []
      (((r.length : Int) - m) - 1) (r.length : Int)) = _
  have hrev : r.get ⟨m, hm⟩ :: (r.take m).reverse = (r.take (m+1)).reverse := by
    rw [htake, List.reverse_append]
    rfl
  have hsub : ((r.length : Int) - m) - 1 = (r.length : Int) - (m + 1 : Nat) := by
    push_cast
    ring
  rw [midState, hrev, hsub]

theorem allocateN_midState (r : List Nat) (hnd : r.Nodup) :
    ∀ (k m : Nat), m + k ≤ r.length →
      allocateN (midState r m) k = (midState r (m+k), (r.drop m).take k) := by
  intro k
  induction k with
  | zero =>
    intro m hm
    simp [allocateN]
  | succ n ih =>
    intro m hm
    have hmlt : m < r.length := by omega
    have hstep := allocate_midState r hnd m hmlt
    show (match Allocate (midState r m) with
      | (some a, al2) =>
        let p := allocateN al2 n
        (p.1, a :: p.2)
      | (none, al2) => (al2, [])) = _
    rw [hstep]
    show ((allocateN (midState r (m+1)) n).1,
      r.get ⟨m, hmlt⟩ :: (allocateN (midState r (m+1)) n).2) = _
    rw [ih (m+1) (by omega)]
    have hdrop : r.drop m = r.get ⟨m, hmlt⟩ :: r.drop (m+1) := List.drop_eq_get_cons hmlt
    have hidx : m + 1 + n = m + (n + 1) := by omega
    rw [hdrop, List.take_succ_cons, hidx]

/-- C2: from a freshly constructed allocator over a strictly ascending
range of N addresses, K sequential Allocate calls with K at most N and no
other operations leave Remaining at N minus K, and the returned addresses
are exactly the first K range elements: pairwise distinct, all range
members, and in strictly ascending order. -/
theorem c2_sequential_allocate (r : List Nat) (k : Nat)
    (hsorted : List.Sorted (· < ·) r) (hk : k ≤ r.length) :
    Remaining (allocateN (NewAllocator r) k).1 = (r.length : Int) - k ∧
    (allocateN (NewAllocator r) k).2 = r.take k ∧
    (allocateN (NewAllocator r) k).2.Nodup ∧
    (∀ a ∈ (allocateN (NewAllocator r) k).2, a ∈ r) ∧
    List.Sorted (· < ·) (allocateN (NewAllocator r) k).2 := by
  have hnd : r.Nodup := hsorted.nodup
  have h0 : NewAllocator r = midState r 0 := by
    rw [NewAllocator, midState]
    simp
  have hrun := allocateN_midState r hnd k 0 (by omega)
  rw [h0, hrun]
  have htk : (r.drop 0).take k = r.take k := by rw [List.drop_zero]
  rw [htk]
  refine ⟨?_, rfl, ?_, ?_, ?_⟩
  · rw [midState, Remaining]
    simp
  · exact List.Nodup.sublist (List.take_sublist k r) hnd
  · exact fun a ha => List.take_subset k r ha
  · exact List.Pairwise.sublist (List.take_sublist k r) hsorted

theorem c2_witness :
    Remaining (allocateN (NewAllocator [3, 5, 9]) 2).1 = ((3 : Nat) : Int) - 2 ∧
    (allocateN (NewAllocator [3, 5, 9]) 2).2 = [3, 5, 9].take 2 ∧
    (allocateN (NewAllocator [3, 5, 9]) 2).2.Nodup ∧
    (∀ a ∈ (allocateN (NewAllocator [3, 5, 9]) 2).2, a ∈ [3, 5, 9]) ∧
    List.Sorted (· < ·) (allocateN (NewAllocator [3, 5, 9]) 2).2 := by
  have h := c2_sequential_allocate [3, 5, 9] 2 (by decide) (by decide)
  simpa using h
